import Mathlib

/-!
Verification of the magitulator history-rewriting tool.

The development shallowly embeds the Rust sources (`src/main.rs`,
`src/mirror.rs`, `src/copy_object_recursive.rs`) over a model of a
content-addressed object store.  Object ids are natural numbers; the
content-address function `hash : GitObj → Nat` is a parameter.  Writing an
object appends it to a write log and inserts it at its hash unless that id
is already present (git never overwrites an existing loose object).
External collaborators (the ancestry walk, revision resolution) are
parameters, constrained where a claim needs their documented contract.
-/

deriving instance DecidableEq for Except

namespace Magit

/-- Author/committer signature: display name, email, timestamp. -/
structure Signature where
  name : String
  email : String
  time : Int
deriving DecidableEq, Repr

/-- Structural data of a commit object, mirroring `gix::objs::Commit`. -/
structure CommitData where
  tree : Nat
  parents : List Nat
  author : Signature
  committer : Signature
  encoding : Option String
  message : String
  extra_headers : List (String × String)
deriving DecidableEq, Repr

/-- A stored git object: blob, tree (named entries referencing children),
commit, or tag. -/
inductive GitObj where
  | blob : List Nat → GitObj
  | tree : List (String × Nat) → GitObj
  | commit : CommitData → GitObj
  | tag : List Nat → GitObj
deriving DecidableEq, Repr

/-- An object store: id-indexed objects plus a log of every write call,
newest first. -/
structure Store where
  objects : List (Nat × GitObj)
  log : List GitObj
deriving DecidableEq, Repr

/-- Lookup `find(id)`: the object stored under `id`, if any. -/
def Store.find (s : Store) (i : Nat) : Option GitObj :=
  (s.objects.find? (fun p => p.1 == i)).map Prod.snd

/-- Model of `write(kind, bytes) -> id`: content-addressed write.  The id is the
hash of the content; an object already present under that id is kept
(git does not overwrite existing objects); the call is always logged. -/
def Store.write (s : Store) (hash : GitObj → Nat) (o : GitObj) : Nat × Store :=
  (hash o,
   { objects := if (s.find (hash o)).isSome then s.objects else (hash o, o) :: s.objects,
     log := o :: s.log })

/-- The store holds each object at the hash of its content. -/
def Store.WF (s : Store) (hash : GitObj → Nat) : Prop :=
  ∀ p ∈ s.objects, hash p.2 = p.1

/-- At most one object per id (no conflicting duplicate entries). -/
def Store.Functional (s : Store) : Prop :=
  ∀ p ∈ s.objects, ∀ q ∈ s.objects, p.1 = q.1 → p.2 = q.2

/-- Two content-addressed stores never disagree on an id they share. -/
def StoresAgree (src dst : Store) : Prop :=
  ∀ p ∈ src.objects, ∀ q ∈ dst.objects, p.1 = q.1 → p.2 = q.2

instance (s : Store) (hash : GitObj → Nat) : Decidable (s.WF hash) :=
  inferInstanceAs (Decidable (∀ p ∈ s.objects, hash p.2 = p.1))

instance (s : Store) : Decidable s.Functional :=
  inferInstanceAs (Decidable (∀ p ∈ s.objects, ∀ q ∈ s.objects, p.1 = q.1 → p.2 = q.2))

instance (src dst : Store) : Decidable (StoresAgree src dst) :=
  inferInstanceAs (Decidable (∀ p ∈ src.objects, ∀ q ∈ dst.objects, p.1 = q.1 → p.2 = q.2))

/-- Translation-table lookup (`HashMap::get`), table as an association list,
newest entry first. -/
def lookupMap (m : List (Nat × Nat)) (i : Nat) : Option Nat :=
  (m.find? (fun p => p.1 == i)).map Prod.snd

/-- Reference lookup in the ref store. -/
def lookupRef (refs : List (String × Nat)) (n : String) : Option Nat :=
  (refs.find? (fun p => p.1 == n)).map Prod.snd

/-- True when the stored object under an id is a commit. -/
def isCommitObj : Option GitObj → Bool
  | some (GitObj.commit _) => true
  | _ => false

/-- The transform applied by the rewrite: display name set to the fixed
value, all other fields kept (`author.name = "Dr. Magitulator".into()`). -/
def withMagName (s : Signature) : Signature :=
  { s with name := "Dr. Magitulator" }

/-- Errors of the rewrite path: `find_object` failure or
`try_into_commit` failure. -/
inductive RwError where
  | findObject
  | notACommit
deriving DecidableEq, Repr

/-- Parent ids of the commit stored under an id (empty for non-commits
and missing ids). -/
def parentsOf (repo : Store) (i : Nat) : List Nat :=
  match repo.find i with
  | some (GitObj.commit c) => c.parents
  | _ => []

/-- Constant from `main.rs` / `lib.rs`: the fixed branch-name marker. -/
def BRANCH_POSTFIX : String := "-magitied"

/-- Model of `get_commits_to_rewrite` (identical in `main.rs` and `mirror.rs`):
build the exclusion set from `base` (only when `base ≠ target`), filter the
topological walk of `target`, append a parentless `base` when it was
neither excluded nor already collected, and reverse to oldest-first.
The topological ancestry walk is the external collaborator `walk`. -/
def get_commits_to_rewrite (walk : Nat → List Nat) (repo : Store)
    (base_id target_id : Nat) : Except RwError (List Nat) :=
  let base_commits : List Nat := if base_id = target_id then [] else walk base_id
  let commits := (walk target_id).filter (fun i => !(base_commits.contains i))
  if !(base_commits.contains base_id) && !(commits.contains base_id) then
    match repo.find base_id with
    | some (GitObj.commit c) =>
        if c.parents.length = 0 then Except.ok ((commits ++ [base_id]).reverse)
        else Except.ok commits.reverse
    | some _ => Except.error RwError.notACommit
    | none => Except.error RwError.findObject
  else Except.ok commits.reverse

/-- The new commit constructed by one rewrite step from original data `c`
and already-remapped parents `ps`. -/
def mkNC (c : CommitData) (ps : List Nat) : CommitData :=
  { tree := c.tree, parents := ps, author := withMagName c.author,
    committer := withMagName c.committer, encoding := c.encoding,
    message := c.message, extra_headers := c.extra_headers }

/-- Loop body of `rewrite_commits` (`main.rs`): for each id, read the
commit from the store being written, remap parents through the translation
table (keep the original id when absent), transform the signatures, write
the new commit, record the translation, remember the last new id. -/
def rewriteGo (hash : GitObj → Nat) :
    Store → List (Nat × Nat) → Option Nat → List Nat →
    Except RwError (Store × List (Nat × Nat) × Option Nat)
  | st, m, last, [] => Except.ok (st, m, last)
  | st, m, last, old_id :: rest =>
    match st.find old_id with
    | some (GitObj.commit c) =>
        let nps := c.parents.map (fun p => (lookupMap m p).getD p)
        let w := st.write hash (GitObj.commit (mkNC c nps))
        rewriteGo hash w.2 ((old_id, w.1) :: m) (some w.1) rest
    | some _ => Except.error RwError.notACommit
    | none => Except.error RwError.findObject

/-- Model of `rewrite_commits` from `main.rs`, with the internal translation table
and final store exposed alongside the returned last new oid. -/
def rewrite_commits (hash : GitObj → Nat) (repo : Store) (ids : List Nat) :
    Except RwError (Store × List (Nat × Nat) × Option Nat) :=
  rewriteGo hash repo [] none ids

/-- Snapshot structure `CommitDescriptor` from `mirror.rs`. -/
structure CommitDescriptor where
  original_id : Nat
  original_parent_ids : List Nat
  tree : Nat
  author : Signature
  committer : Signature
  encoding : Option String
  message : String
  extra_headers : List (String × String)
deriving DecidableEq, Repr

/-- Model of `generate_descriptors` from `mirror.rs`: snapshot each commit's data,
applying the name transform once. -/
def generate_descriptors (repo : Store) : List Nat → Except RwError (List CommitDescriptor)
  | [] => Except.ok []
  | i :: rest =>
    match repo.find i with
    | some (GitObj.commit c) =>
        (generate_descriptors repo rest).map
          (fun ds => { original_id := i, original_parent_ids := c.parents,
                       tree := c.tree, author := withMagName c.author,
                       committer := withMagName c.committer, encoding := c.encoding,
                       message := c.message, extra_headers := c.extra_headers } :: ds)
    | some _ => Except.error RwError.notACommit
    | none => Except.error RwError.findObject

/-- Loop body of `execute_mirror` (`mirror.rs`): replay descriptors,
remapping parents through the translation table and writing new commits. -/
def executeGo (hash : GitObj → Nat) :
    Store → List (Nat × Nat) → Option Nat → List CommitDescriptor →
    Store × List (Nat × Nat) × Option Nat
  | st, m, last, [] => (st, m, last)
  | st, m, last, d :: rest =>
    let nps := d.original_parent_ids.map (fun p => (lookupMap m p).getD p)
    let nc : CommitData :=
      { tree := d.tree, parents := nps, author := d.author, committer := d.committer,
        encoding := d.encoding, message := d.message, extra_headers := d.extra_headers }
    let w := st.write hash (GitObj.commit nc)
    executeGo hash w.2 ((d.original_id, w.1) :: m) (some w.1) rest

/-- Model of `execute_mirror` from `mirror.rs`, with internal state exposed. -/
def execute_mirror (hash : GitObj → Nat) (repo : Store) (ds : List CommitDescriptor) :
    Store × List (Nat × Nat) × Option Nat :=
  executeGo hash repo [] none ds

/-- Model of `create_branch`: derive the branch name from the target name
plus the fixed marker under refs/heads/ and set it unconditionally. -/
def create_branch (refs : List (String × Nat)) (target_name : String) (final_oid : Nat) :
    List (String × Nat) :=
  ("refs/heads/" ++ (target_name ++ BRANCH_POSTFIX), final_oid) :: refs

/-- Errors surfaced by `main`. -/
inductive MainError where
  | resolveBase
  | resolveTarget
  | revset (e : RwError)
  | rewrite (e : RwError)
  | noCommitsProcessed
deriving DecidableEq, Repr

/-- Model of `main` from `main.rs`: resolve both refs, compute the revision set,
stop successfully if it is empty, rewrite, then publish the branch.
Returns the outcome (`none` = empty no-op success, `some tip` = branch
published at `tip`) together with the final store and ref store. -/
def mainRun (hash : GitObj → Nat) (walk : Nat → List Nat)
    (resolve : String → Option Nat) (repo : Store) (refs : List (String × Nat))
    (base target : String) :
    Except MainError (Option Nat) × Store × List (String × Nat) :=
  match resolve base with
  | none => (Except.error MainError.resolveBase, repo, refs)
  | some base_id =>
    match resolve target with
    | none => (Except.error MainError.resolveTarget, repo, refs)
    | some target_id =>
      match get_commits_to_rewrite walk repo base_id target_id with
      | Except.error e => (Except.error (MainError.revset e), repo, refs)
      | Except.ok ids =>
        if ids.isEmpty then (Except.ok none, repo, refs)
        else
          match rewrite_commits hash repo ids with
          | Except.error e => (Except.error (MainError.rewrite e), repo, refs)
          | Except.ok (st, _, some tip) =>
              (Except.ok (some tip), st, create_branch refs target tip)
          | Except.ok (st, _, none) => (Except.error MainError.noCommitsProcessed, st, refs)

/-- Errors of `copy_object_recursive` (`CopyError` in the source, plus a
depth-limit marker modelling exhaustion of the unbounded Rust recursion). -/
inductive CopyError where
  | findObject
  | depthLimit
deriving DecidableEq, Repr

/-- Sequential copy of a list of child ids, threading the destination
store (the `for entry_res in tree.iter()` loop). -/
def copyMany (f : Store → Nat → Except CopyError (Nat × Store)) :
    Store → List Nat → Except CopyError Store
  | d, [] => Except.ok d
  | d, c :: cs =>
    match f d c with
    | Except.error e => Except.error e
    | Except.ok x => copyMany f x.2 cs

/-- Body of `copy_object_recursive`, fuel-indexed: if the destination already
holds the id, return it at once; otherwise read the object from the source
and copy by kind — blob bytes verbatim, tree children first then the
tree's own bytes verbatim, commits/tags as a defensive no-op. -/
def copyF (hash : GitObj → Nat) (src : Store) :
    Nat → Store → Nat → Except CopyError (Nat × Store)
  | 0 => fun dst i =>
      if (dst.find i).isSome then Except.ok (i, dst) else Except.error CopyError.depthLimit
  | fuel + 1 => fun dst i =>
      if (dst.find i).isSome then Except.ok (i, dst)
      else
        match src.find i with
        | none => Except.error CopyError.findObject
        | some (GitObj.blob data) => Except.ok (dst.write hash (GitObj.blob data))
        | some (GitObj.tree entries) =>
          match copyMany (copyF hash src fuel) dst (entries.map Prod.snd) with
          | Except.error e => Except.error e
          | Except.ok d1 => Except.ok (d1.write hash (GitObj.tree entries))
        | some (GitObj.commit _) => Except.ok (i, dst)
        | some (GitObj.tag _) => Except.ok (i, dst)

/-- Model of `copy_object_recursive` from `copy_object_recursive.rs`. -/
def copy_object_recursive (hash : GitObj → Nat) (fuel : Nat)
    (src dst : Store) (i : Nat) : Except CopyError (Nat × Store) :=
  copyF hash src fuel dst i

/-- Blob or tree kind (the kinds the mirror actually copies). -/
def isBlobOrTree : GitObj → Bool
  | GitObj.blob _ => true
  | GitObj.tree _ => true
  | _ => false

/-- Kind test on a find result. -/
def isBT? : Option GitObj → Bool
  | some o => isBlobOrTree o
  | none => false

/-- Reachability in the commit graph by following parent links. -/
inductive Reaches (repo : Store) (t : Nat) : Nat → Prop
  | refl : Reaches repo t t
  | step {i p : Nat} : Reaches repo t i → p ∈ parentsOf repo i → Reaches repo t p

/-- Contract of the external topological ancestry walk (§6 of the spec):
each id exactly once, the tip visited, closed under parent links, and
every visited id is the tip or a parent of an earlier-visited id
(descendants before ancestors). -/
structure WalkSpec (repo : Store) (walk : Nat → List Nat) (t : Nat) : Prop where
  nodup : (walk t).Nodup
  mem_tip : t ∈ walk t
  closed : ∀ i ∈ walk t, ∀ p ∈ parentsOf repo i, p ∈ walk t
  grounded : ∀ k : Fin (walk t).length, (walk t).get k = t ∨
      ∃ l : Fin (walk t).length, l.val < k.val ∧
        (walk t).get k ∈ parentsOf repo ((walk t).get l)

/-! ### Store lemmas -/

/-- Lookup in a plain id/object association list. -/
def findA (l : List (Nat × GitObj)) (i : Nat) : Option GitObj :=
  (l.find? (fun p => p.1 == i)).map Prod.snd

theorem Store.find_def (s : Store) (i : Nat) : s.find i = findA s.objects i := rfl

theorem findA_cons {a : Nat} {b : GitObj} {l : List (Nat × GitObj)} {i : Nat} :
    findA ((a, b) :: l) i = if a = i then some b else findA l i := by
  by_cases h : a = i
  · have hb : (a == i) = true := by simp [h]
    simp [findA, List.find?, hb, h]
  · have hb : (a == i) = false := by simp [h]
    simp [findA, List.find?, hb, h]

theorem findA_mem {l : List (Nat × GitObj)} {i : Nat} {o : GitObj}
    (h : findA l i = some o) : (i, o) ∈ l := by
  induction l with
  | nil => simp [findA, List.find?] at h
  | cons p rest ih =>
    rcases p with ⟨a, b⟩
    rw [findA_cons] at h
    by_cases ha : a = i
    · rw [if_pos ha] at h
      subst ha
      cases h
      exact List.mem_cons_self _ _
    · rw [if_neg ha] at h
      exact List.mem_cons_of_mem _ (ih h)

theorem Store.find_mem {s : Store} {i : Nat} {o : GitObj} (h : s.find i = some o) :
    (i, o) ∈ s.objects := findA_mem (by rw [← Store.find_def]; exact h)

theorem Store.write_log (s : Store) (hash : GitObj → Nat) (o : GitObj) :
    ((s.write hash o).2).log = o :: s.log := rfl

theorem Store.write_id (s : Store) (hash : GitObj → Nat) (o : GitObj) :
    (s.write hash o).1 = hash o := rfl

theorem Store.write_objects (s : Store) (hash : GitObj → Nat) (o : GitObj) :
    ((s.write hash o).2).objects =
      if (s.find (hash o)).isSome then s.objects else (hash o, o) :: s.objects := rfl

theorem Store.write_find (s : Store) (hash : GitObj → Nat) (o : GitObj) (j : Nat) :
    ((s.write hash o).2).find j =
      if (s.find (hash o)).isSome then s.find j
      else if hash o = j then some o else s.find j := by
  rw [Store.find_def, Store.write_objects]
  cases hfo : (s.find (hash o)).isSome
  · simp only [Bool.false_eq_true, if_false]
    rw [findA_cons, ← Store.find_def]
  · simp only [if_true]
    rw [← Store.find_def]

theorem Store.write_find_present {s : Store} {hash : GitObj → Nat} {o : GitObj} {j : Nat}
    (h : (s.find j).isSome) : ((s.write hash o).2).find j = s.find j := by
  rw [Store.write_find]
  cases hfo : (s.find (hash o)).isSome
  · simp only [Bool.false_eq_true, if_false]
    by_cases he : hash o = j
    · exfalso
      rw [he] at hfo
      rw [hfo] at h
      exact Bool.false_ne_true h
    · rw [if_neg he]
  · simp only [if_true]

theorem Store.write_find_new {s : Store} {hash : GitObj → Nat} {o : GitObj}
    (h : s.find (hash o) = none) : ((s.write hash o).2).find (hash o) = some o := by
  rw [Store.write_find, h]
  simp

/-! ### Small helpers -/

theorem isCommitObj_iff {x : Option GitObj} :
    isCommitObj x = true ↔ ∃ c, x = some (GitObj.commit c) := by
  cases x with
  | none => simp [isCommitObj]
  | some o => cases o <;> simp [isCommitObj]

theorem lookupMap_eq_none {m : List (Nat × Nat)} {i : Nat} :
    lookupMap m i = none ↔ i ∉ m.map Prod.fst := by
  unfold lookupMap
  rw [Option.map_eq_none', List.find?_eq_none]
  constructor
  · intro h hmem
    rcases List.mem_map.mp hmem with ⟨p, hp, hfst⟩
    exact (h p hp) (by simp [hfst])
  · intro h p hp hbeq
    exact h (List.mem_map.mpr ⟨p, hp, by simpa using hbeq⟩)

/-! ### Rewrite-loop structure -/

theorem rewriteGo_spec (hash : GitObj → Nat) (repo : Store) (ids : List Nat) :
    ∀ (st : Store) (m : List (Nat × Nat)) (last : Option Nat),
      (∀ i ∈ ids, isCommitObj (repo.find i) = true) →
      (∀ i, (repo.find i).isSome → st.find i = repo.find i) →
      ∃ st' m' last',
        rewriteGo hash st m last ids = Except.ok (st', m', last') ∧
        (∀ i, (repo.find i).isSome → st'.find i = repo.find i) ∧
        m'.map Prod.fst = ids.reverse ++ m.map Prod.fst ∧
        ∃ nl, st'.log = nl ++ st.log ∧ nl.length = ids.length ∧
          ∀ o ∈ nl, ∃ i ∈ ids, ∃ c ps, repo.find i = some (GitObj.commit c) ∧
            o = GitObj.commit (mkNC c ps) := by
  induction ids with
  | nil =>
    intro st m last _ hinv
    exact ⟨st, m, last, rfl, hinv, by simp, [], by simp⟩
  | cons i rest ih =>
    intro st m last hall hinv
    obtain ⟨c, hc⟩ := isCommitObj_iff.mp (hall i (List.mem_cons_self i rest))
    have hfind : st.find i = some (GitObj.commit c) := by
      rw [hinv i (by simp [hc]), hc]
    set nps := c.parents.map (fun p => (lookupMap m p).getD p) with hnps
    set w := st.write hash (GitObj.commit (mkNC c nps)) with hw
    have hinv' : ∀ j, (repo.find j).isSome → w.2.find j = repo.find j := by
      intro j hj
      rw [Store.write_find_present (by rw [hinv j hj]; exact hj)]
      exact hinv j hj
    obtain ⟨st', m', last', heq, hinv2, hkeys, nl, hlog, hlen, helts⟩ :=
      ih w.2 ((i, w.1) :: m) (some w.1) (fun j hj => hall j (List.mem_cons_of_mem _ hj)) hinv'
    refine ⟨st', m', last', ?_, hinv2, ?_, nl ++ [GitObj.commit (mkNC c nps)], ?_, ?_, ?_⟩
    · show rewriteGo hash st m last (i :: rest) = _
      unfold rewriteGo
      rw [hfind]
      exact heq
    · rw [hkeys]; simp
    · rw [hlog, Store.write_log]; simp
    · simp [hlen]
    · intro o ho
      rcases List.mem_append.mp ho with hmem | hmem
      · obtain ⟨j, hj, cj, psj, hcj, hoj⟩ := helts o hmem
        exact ⟨j, List.mem_cons_of_mem _ hj, cj, psj, hcj, hoj⟩
      · simp only [List.mem_singleton] at hmem
        exact ⟨i, List.mem_cons_self i rest, c, nps, hc, hmem⟩

theorem rewriteGo_append (hash : GitObj → Nat) (xs : List Nat) :
    ∀ (ys : List Nat) (st : Store) (m : List (Nat × Nat)) (last : Option Nat),
      rewriteGo hash st m last (xs ++ ys) =
        match rewriteGo hash st m last xs with
        | Except.ok (st', m', last') => rewriteGo hash st' m' last' ys
        | Except.error e => Except.error e := by
  induction xs with
  | nil => intro ys st m last; rfl
  | cons x rest ih =>
    intro ys st m last
    cases hf : st.find x with
    | none => simp only [List.cons_append, rewriteGo, hf]
    | some o =>
      cases o with
      | commit c =>
        simp only [List.cons_append, rewriteGo, hf]
        exact ih ys _ _ _
      | blob d => simp only [List.cons_append, rewriteGo, hf]
      | tree e => simp only [List.cons_append, rewriteGo, hf]
      | tag d => simp only [List.cons_append, rewriteGo, hf]

/-- Equivalence core: the single-pass loop of `main.rs` equals extracting
descriptors first (`generate_descriptors`) and replaying them
(`execute_mirror`), for any intermediate state agreeing with the original
repository on ids present there. -/
theorem genExec_spec (hash : GitObj → Nat) (repo : Store) (ids : List Nat) :
    ∀ (st : Store) (m : List (Nat × Nat)) (last : Option Nat),
      (∀ i ∈ ids, isCommitObj (repo.find i) = true) →
      (∀ i, (repo.find i).isSome → st.find i = repo.find i) →
      ∃ ds, generate_descriptors repo ids = Except.ok ds ∧
        rewriteGo hash st m last ids = Except.ok (executeGo hash st m last ds) := by
  induction ids with
  | nil => intro st m last _ _; exact ⟨[], rfl, rfl⟩
  | cons i rest ih =>
    intro st m last hall hinv
    obtain ⟨c, hc⟩ := isCommitObj_iff.mp (hall i (List.mem_cons_self i rest))
    have hfind : st.find i = some (GitObj.commit c) := by
      rw [hinv i (by simp [hc]), hc]
    set nps := c.parents.map (fun p => (lookupMap m p).getD p) with hnps
    set w := st.write hash (GitObj.commit (mkNC c nps)) with hw
    have hinv' : ∀ j, (repo.find j).isSome → w.2.find j = repo.find j := by
      intro j hj
      rw [Store.write_find_present (by rw [hinv j hj]; exact hj)]
      exact hinv j hj
    obtain ⟨ds, hds, heq⟩ := ih w.2 ((i, w.1) :: m) (some w.1)
      (fun j hj => hall j (List.mem_cons_of_mem _ hj)) hinv'
    refine ⟨{ original_id := i, original_parent_ids := c.parents, tree := c.tree,
              author := withMagName c.author, committer := withMagName c.committer,
              encoding := c.encoding, message := c.message,
              extra_headers := c.extra_headers } :: ds, ?_, ?_⟩
    · simp only [generate_descriptors, hc, hds, Except.map]
    · simp only [rewriteGo, hfind]
      rw [heq]
      rfl

/-- One step of the rewrite at position `k`: the run on the first `k` ids
succeeds with a translation table keyed by exactly those ids, and the run
on the first `k + 1` ids extends it by writing the commit built from the
`k`-th original through the table. -/
theorem rewrite_take_succ (hash : GitObj → Nat) (repo : Store) (ids : List Nat)
    (hall : ∀ i ∈ ids, isCommitObj (repo.find i) = true)
    (k : Nat) (hk : k < ids.length) :
    ∃ st m last c nid st1,
      rewrite_commits hash repo (ids.take k) = Except.ok (st, m, last) ∧
      m.map Prod.fst = (ids.take k).reverse ∧
      repo.find (ids.get ⟨k, hk⟩) = some (GitObj.commit c) ∧
      rewrite_commits hash repo (ids.take (k + 1)) =
        Except.ok (st1, (ids.get ⟨k, hk⟩, nid) :: m, some nid) ∧
      st1.log =
        GitObj.commit (mkNC c (c.parents.map (fun p => (lookupMap m p).getD p))) :: st.log := by
  have hallk : ∀ i ∈ ids.take k, isCommitObj (repo.find i) = true :=
    fun i hi => hall i (List.take_subset _ _ hi)
  obtain ⟨st, m, last, heq, hinv, hkeys, _⟩ :=
    rewriteGo_spec hash repo (ids.take k) repo [] none hallk (fun i _ => rfl)
  have hkeys' : m.map Prod.fst = (ids.take k).reverse := by simpa using hkeys
  have hidk : ids.get ⟨k, hk⟩ ∈ ids := ids.get_mem _ _
  obtain ⟨c, hc⟩ := isCommitObj_iff.mp (hall _ hidk)
  have hfind : st.find (ids.get ⟨k, hk⟩) = some (GitObj.commit c) := by
    rw [hinv _ (by rw [hc]; rfl), hc]
  have hstep : ids.take (k + 1) = ids.take k ++ [ids.get ⟨k, hk⟩] := by
    rw [List.take_succ, List.getElem?_eq_getElem hk]
    simp [List.get_eq_getElem]
  set nps := c.parents.map (fun p => (lookupMap m p).getD p) with hnps
  set w := st.write hash (GitObj.commit (mkNC c nps)) with hw
  refine ⟨st, m, last, c, w.1, w.2, heq, hkeys', hc, ?_, Store.write_log st hash _⟩
  show rewriteGo hash repo [] none (ids.take (k + 1)) = _
  rw [hstep, rewriteGo_append]
  rw [show rewriteGo hash repo [] none (ids.take k) = Except.ok (st, m, last) from heq]
  simp only [rewriteGo, hfind]

/-- C1: every rewritten commit's parent list is the original parent list
mapped, in order, through the translation table as built before that
commit is processed — remapped where the table has the parent, the
original id verbatim where it does not (a merge of one in-range and one
excluded parent thus keeps exactly one original parent id). -/
theorem C1_parent_remapping (hash : GitObj → Nat) (repo : Store) (ids : List Nat)
    (hall : ∀ i ∈ ids, isCommitObj (repo.find i) = true)
    (k : Nat) (hk : k < ids.length) :
    ∃ st m last c nid st1 nc,
      rewrite_commits hash repo (ids.take k) = Except.ok (st, m, last) ∧
      rewrite_commits hash repo (ids.take (k + 1)) =
        Except.ok (st1, (ids.get ⟨k, hk⟩, nid) :: m, some nid) ∧
      repo.find (ids.get ⟨k, hk⟩) = some (GitObj.commit c) ∧
      st1.log.head? = some (GitObj.commit nc) ∧
      nc.parents.length = c.parents.length ∧
      ∀ (j : Nat) (p : Nat), c.parents[j]? = some p →
        ((∃ q, lookupMap m p = some q ∧ nc.parents[j]? = some q) ∨
         (lookupMap m p = none ∧ nc.parents[j]? = some p)) := by
  obtain ⟨st, m, last, c, nid, st1, h1, _, hc, h2, hlog⟩ :=
    rewrite_take_succ hash repo ids hall k hk
  refine ⟨st, m, last, c, nid, st1,
    mkNC c (c.parents.map (fun p => (lookupMap m p).getD p)), h1, h2, hc, ?_, ?_, ?_⟩
  · rw [hlog]; rfl
  · simp [mkNC]
  · intro j p hp
    have hm : (mkNC c (c.parents.map (fun q => (lookupMap m q).getD q))).parents[j]? =
        some ((lookupMap m p).getD p) := by
      show (c.parents.map (fun q => (lookupMap m q).getD q))[j]? = _
      rw [List.getElem?_map, hp]
      rfl
    cases hl : lookupMap m p with
    | some q =>
      left
      exact ⟨q, rfl, by rw [hm, hl]; rfl⟩
    | none =>
      right
      exact ⟨rfl, by rw [hm, hl]; rfl⟩

/-- C3: the commit written at step `k` is the rewrite of exactly the
`k`-th resolved id's original commit: it keeps that original's tree id,
message, encoding and extra headers, and its author and committer keep
the original's email and timestamp while both display names are set to
the fixed value "Dr. Magitulator". -/
theorem C3_frame_preservation (hash : GitObj → Nat) (repo : Store) (ids : List Nat)
    (hall : ∀ i ∈ ids, isCommitObj (repo.find i) = true)
    (k : Nat) (hk : k < ids.length) :
    ∃ st m last st1 m1 last1 c nc,
      rewrite_commits hash repo (ids.take k) = Except.ok (st, m, last) ∧
      rewrite_commits hash repo (ids.take (k + 1)) = Except.ok (st1, m1, last1) ∧
      repo.find (ids.get ⟨k, hk⟩) = some (GitObj.commit c) ∧
      st1.log.head? = some (GitObj.commit nc) ∧
      nc.tree = c.tree ∧ nc.message = c.message ∧ nc.encoding = c.encoding ∧
      nc.extra_headers = c.extra_headers ∧
      nc.author.name = "Dr. Magitulator" ∧ nc.author.email = c.author.email ∧
      nc.author.time = c.author.time ∧
      nc.committer.name = "Dr. Magitulator" ∧ nc.committer.email = c.committer.email ∧
      nc.committer.time = c.committer.time := by
  obtain ⟨st, m, last, c, nid, st1, h1, _, hc, h2, hlog⟩ :=
    rewrite_take_succ hash repo ids hall k hk
  exact ⟨st, m, last, st1, (ids.get ⟨k, hk⟩, nid) :: m, some nid, c,
    mkNC c (c.parents.map (fun p => (lookupMap m p).getD p)),
    h1, h2, hc, by rw [hlog]; rfl,
    rfl, rfl, rfl, rfl, rfl, rfl, rfl, rfl, rfl, rfl⟩

theorem not_mem_take_of_nodup {ids : List Nat} (hnd : ids.Nodup) {k : Nat}
    (hk : k < ids.length) : ids.get ⟨k, hk⟩ ∉ ids.take k := by
  intro hmem
  have hnd' : (ids.take k ++ ids.drop k).Nodup := by
    rw [List.take_append_drop]; exact hnd
  have hdisj := (List.nodup_append.mp hnd').2.2
  have hdrop : ids.get ⟨k, hk⟩ ∈ ids.drop k := by
    rw [List.drop_eq_getElem_cons hk, List.get_eq_getElem]
    exact List.mem_cons_self _ _
  exact hdisj hmem hdrop

/-- C9: over a whole run the translation table starts empty and gains
exactly one entry per processed commit (its keys are exactly the processed
ids), and no insertion ever overwrites an existing entry: at each step the
id inserted is absent from the table built so far. -/
theorem C9_table_growth (hash : GitObj → Nat) (repo : Store) (ids : List Nat)
    (hnd : ids.Nodup)
    (hall : ∀ i ∈ ids, isCommitObj (repo.find i) = true) :
    ∃ st m last, rewrite_commits hash repo ids = Except.ok (st, m, last) ∧
      m.map Prod.fst = ids.reverse ∧ m.length = ids.length ∧ (m.map Prod.fst).Nodup ∧
      ∀ (k : Nat) (hk : k < ids.length), ∃ stk mk lastk nid st1,
        rewrite_commits hash repo (ids.take k) = Except.ok (stk, mk, lastk) ∧
        rewrite_commits hash repo (ids.take (k + 1)) =
          Except.ok (st1, (ids.get ⟨k, hk⟩, nid) :: mk, some nid) ∧
        lookupMap mk (ids.get ⟨k, hk⟩) = none := by
  obtain ⟨st, m, last, heq, _, hkeys, _⟩ :=
    rewriteGo_spec hash repo ids repo [] none hall (fun i _ => rfl)
  have hkeys' : m.map Prod.fst = ids.reverse := by simpa using hkeys
  refine ⟨st, m, last, heq, hkeys', ?_, ?_, ?_⟩
  · have hlen := congrArg List.length hkeys'
    simpa using hlen
  · rw [hkeys']
    exact List.nodup_reverse.mpr hnd
  · intro k hk
    obtain ⟨stk, mk, lastk, c, nid, st1, h1, hkk, _, h2, _⟩ :=
      rewrite_take_succ hash repo ids hall k hk
    refine ⟨stk, mk, lastk, nid, st1, h1, h2, ?_⟩
    rw [lookupMap_eq_none, hkk, List.mem_reverse]
    exact not_mem_take_of_nodup hnd hk

/-- C10: on the same repository and the same resolved oldest-first id
list, the single-pass rewrite of `main.rs` and the two-phase
descriptor/replay pipeline of `mirror.rs` produce the same store (hence
identical commit objects, in the same order), the same translation table
and the same final tip. -/
theorem C10_pipeline_equiv (hash : GitObj → Nat) (repo : Store) (ids : List Nat)
    (hall : ∀ i ∈ ids, isCommitObj (repo.find i) = true) :
    ∃ ds st m last,
      generate_descriptors repo ids = Except.ok ds ∧
      rewrite_commits hash repo ids = Except.ok (st, m, last) ∧
      execute_mirror hash repo ds = (st, m, last) := by
  obtain ⟨ds, hds, heq⟩ := genExec_spec hash repo ids repo [] none hall (fun i _ => rfl)
  refine ⟨ds, (executeGo hash repo [] none ds).1, (executeGo hash repo [] none ds).2.1,
          (executeGo hash repo [] none ds).2.2, hds, ?_, rfl⟩
  rw [rewrite_commits, heq]

/-! ### Concrete repositories used by the witnesses -/

def sigA : Signature := { name := "Alice", email := "a@x", time := 1 }

def sigB : Signature := { name := "Bob", email := "b@x", time := 2 }

def sigC : Signature := { name := "Carol", email := "c@x", time := 3 }

/-- Root commit of the two-commit chain. -/
def cA : CommitData :=
  { tree := 10, parents := [], author := sigA, committer := sigA,
    encoding := none, message := "init", extra_headers := [] }

/-- Child commit of `cA`. -/
def cB : CommitData :=
  { tree := 11, parents := [1], author := sigB, committer := sigB,
    encoding := some "utf-8", message := "second", extra_headers := [("k", "v")] }

/-- Chain repository: commit 1 (`cA`, root) ← commit 2 (`cB`). -/
def repo2 : Store :=
  { objects := [(1, GitObj.commit cA), (2, GitObj.commit cB)], log := [] }

/-- Topological walk of `repo2` (descendant before ancestor). -/
def walk2 : Nat → List Nat :=
  fun i => if i = 2 then [2, 1] else if i = 1 then [1] else []

/-- Content-address function for the objects arising from `repo2`. -/
def hash2 : GitObj → Nat := fun o =>
  if o = GitObj.commit (mkNC cA []) then 21
  else if o = GitObj.commit (mkNC cB [21]) then 22 else 99

/-- Name resolution for `repo2`. -/
def resolve2 : String → Option Nat :=
  fun s => if s = "B" then some 2 else if s = "A" then some 1 else none

/-- Excluded base-history commit of the merge repository. -/
def cP : CommitData :=
  { tree := 30, parents := [], author := sigC, committer := sigC,
    encoding := none, message := "base", extra_headers := [] }

/-- In-range parent of the merge. -/
def cQ : CommitData :=
  { tree := 31, parents := [3], author := sigA, committer := sigA,
    encoding := none, message := "branch", extra_headers := [] }

/-- Merge commit: one parent in range (4), one in excluded base (3). -/
def cM : CommitData :=
  { tree := 32, parents := [4, 3], author := sigB, committer := sigB,
    encoding := none, message := "merge", extra_headers := [] }

/-- Merge repository: 3 (`cP`) ← 4 (`cQ`), and 5 (`cM`) merging 4 and 3. -/
def repo3 : Store :=
  { objects := [(3, GitObj.commit cP), (4, GitObj.commit cQ), (5, GitObj.commit cM)],
    log := [] }

/-- Content-address function for the objects arising from `repo3`. -/
def hash3 : GitObj → Nat := fun o =>
  if o = GitObj.commit (mkNC cQ [3]) then 41
  else if o = GitObj.commit (mkNC cM [41, 3]) then 42 else 99

/-- Parent list of the most recently written commit of a successful
rewrite run (extractor used to display a witness concretely). -/
def headParents : Except RwError (Store × List (Nat × Nat) × Option Nat) → Option (List Nat)
  | Except.ok (st, _, _) =>
    match st.log.head? with
    | some (GitObj.commit nc) => some nc.parents
    | _ => none
  | Except.error _ => none

/-- C1 witness: the merge commit 5 (parents 4 in range, 3 excluded) is
rewritten with parent 4 remapped to 41 and parent 3 kept verbatim. -/
theorem C1_witness :
    (∀ i ∈ [4, 5], isCommitObj (repo3.find i) = true) ∧
    (∃ st m last c nid st1 nc,
      rewrite_commits hash3 repo3 ([4, 5].take 1) = Except.ok (st, m, last) ∧
      rewrite_commits hash3 repo3 ([4, 5].take 2) =
        Except.ok (st1, (5, nid) :: m, some nid) ∧
      repo3.find 5 = some (GitObj.commit c) ∧
      st1.log.head? = some (GitObj.commit nc) ∧
      nc.parents.length = c.parents.length ∧
      ∀ (j : Nat) (p : Nat), c.parents[j]? = some p →
        ((∃ q, lookupMap m p = some q ∧ nc.parents[j]? = some q) ∨
         (lookupMap m p = none ∧ nc.parents[j]? = some p))) ∧
    headParents (rewrite_commits hash3 repo3 [4, 5]) = some [41, 3] :=
  ⟨by decide, C1_parent_remapping hash3 repo3 [4, 5] (by decide) 1 (by decide), by decide⟩

/-- C3 witness: on the concrete two-commit chain, the commit written at
step 1 preserves exactly commit 2's frame (tree 11, message "second",
encoding, extra headers, Bob's email and time) with both names set to
"Dr. Magitulator". -/
theorem C3_witness :
    (∀ i ∈ [1, 2], isCommitObj (repo2.find i) = true) ∧
    (∃ st m last st1 m1 last1 c nc,
      rewrite_commits hash2 repo2 ([1, 2].take 1) = Except.ok (st, m, last) ∧
      rewrite_commits hash2 repo2 ([1, 2].take 2) = Except.ok (st1, m1, last1) ∧
      repo2.find 2 = some (GitObj.commit c) ∧
      st1.log.head? = some (GitObj.commit nc) ∧
      nc.tree = c.tree ∧ nc.message = c.message ∧ nc.encoding = c.encoding ∧
      nc.extra_headers = c.extra_headers ∧
      nc.author.name = "Dr. Magitulator" ∧ nc.author.email = c.author.email ∧
      nc.author.time = c.author.time ∧
      nc.committer.name = "Dr. Magitulator" ∧ nc.committer.email = c.committer.email ∧
      nc.committer.time = c.committer.time) :=
  ⟨by decide, C3_frame_preservation hash2 repo2 [1, 2] (by decide) 1 (by decide)⟩

/-- C9 witness: on the concrete two-commit chain the table ends as
`[(2, 22), (1, 21)]`, one fresh insertion per commit. -/
theorem C9_witness :
    (([1, 2] : List Nat).Nodup ∧ ∀ i ∈ [1, 2], isCommitObj (repo2.find i) = true) ∧
    (∃ st m last, rewrite_commits hash2 repo2 [1, 2] = Except.ok (st, m, last) ∧
      m.map Prod.fst = ([1, 2] : List Nat).reverse ∧ m.length = ([1, 2] : List Nat).length ∧
      (m.map Prod.fst).Nodup ∧
      ∀ (k : Nat) (hk : k < ([1, 2] : List Nat).length), ∃ stk mk lastk nid st1,
        rewrite_commits hash2 repo2 (([1, 2] : List Nat).take k) = Except.ok (stk, mk, lastk) ∧
        rewrite_commits hash2 repo2 (([1, 2] : List Nat).take (k + 1)) =
          Except.ok (st1, (([1, 2] : List Nat).get ⟨k, hk⟩, nid) :: mk, some nid) ∧
        lookupMap mk (([1, 2] : List Nat).get ⟨k, hk⟩) = none) ∧
    lookupMap [(2, 22), (1, 21)] 1 = some 21 :=
  ⟨⟨by decide, by decide⟩, C9_table_growth hash2 repo2 [1, 2] (by decide) (by decide), by decide⟩

/-- C10 witness: on the concrete two-commit chain both pipelines agree. -/
theorem C10_witness :
    (∀ i ∈ [1, 2], isCommitObj (repo2.find i) = true) ∧
    (∃ ds st m last,
      generate_descriptors repo2 [1, 2] = Except.ok ds ∧
      rewrite_commits hash2 repo2 [1, 2] = Except.ok (st, m, last) ∧
      execute_mirror hash2 repo2 ds = (st, m, last)) :=
  ⟨by decide, C10_pipeline_equiv hash2 repo2 [1, 2] (by decide)⟩

/-! ### Resolver claims -/

theorem contains_iff {l : List Nat} {a : Nat} : l.contains a = true ↔ a ∈ l := by
  induction l with
  | nil => simp [List.contains]
  | cons x xs ih =>
    simp only [List.contains_cons, Bool.or_eq_true, beq_iff_eq, List.mem_cons, ih]

theorem walkspec_get_reaches {repo : Store} {walk : Nat → List Nat} {t : Nat}
    (hw : WalkSpec repo walk t) :
    ∀ k : Fin (walk t).length, Reaches repo t ((walk t).get k) := by
  have H : ∀ n, ∀ k : Fin (walk t).length, k.val = n → Reaches repo t ((walk t).get k) := by
    intro n
    induction n using Nat.strong_induction_on with
    | _ n ih =>
      intro k hk
      rcases hw.grounded k with h | ⟨l, hl, hmem⟩
      · rw [h]; exact Reaches.refl
      · exact Reaches.step (ih l.val (hk ▸ hl) l rfl) hmem
  exact fun k => H k.val k rfl

theorem walkspec_mem_iff {repo : Store} {walk : Nat → List Nat} {t : Nat}
    (hw : WalkSpec repo walk t) (i : Nat) : i ∈ walk t ↔ Reaches repo t i := by
  constructor
  · intro hi
    obtain ⟨k, hk⟩ := List.get_of_mem hi
    rw [← hk]
    exact walkspec_get_reaches hw k
  · intro hr
    induction hr with
    | refl => exact hw.mem_tip
    | step _ hp ih => exact hw.closed _ ih _ hp

theorem reaches_root {repo : Store} {b : Nat} (hpar : parentsOf repo b = []) :
    ∀ i, Reaches repo b i → i = b := by
  intro i hr
  induction hr with
  | refl => rfl
  | step _ hp ih =>
    rw [ih, hpar] at hp
    cases hp

theorem nodup_all_eq_singleton {l : List Nat} {b : Nat} (hnd : l.Nodup)
    (hb : b ∈ l) (hall : ∀ x ∈ l, x = b) : l = [b] := by
  cases l with
  | nil => cases hb
  | cons x xs =>
    have hx : x = b := hall x (List.mem_cons_self _ _)
    subst hx
    cases xs with
    | nil => rfl
    | cons y ys =>
      have hy : y = x := hall y (by simp)
      subst hy
      exact absurd (List.mem_cons_self y ys) (List.nodup_cons.mp hnd).1

/-- C4: for distinct base and target the resolver returns exactly the ids
reachable from target but not from base, each exactly once, oldest-first —
the reverse of the filtered topological walk from target. -/
theorem C4_revision_set (walk : Nat → List Nat) (repo : Store) (b t : Nat)
    (hne : b ≠ t) (hwb : WalkSpec repo walk b) (hwt : WalkSpec repo walk t) :
    ∃ res, get_commits_to_rewrite walk repo b t = Except.ok res ∧
      res = ((walk t).filter (fun i => !((walk b).contains i))).reverse ∧
      (∀ i, i ∈ res ↔ (Reaches repo t i ∧ ¬ Reaches repo b i)) ∧
      res.Nodup := by
  have hcont : (walk b).contains b = true := contains_iff.mpr hwb.mem_tip
  refine ⟨((walk t).filter (fun i => !((walk b).contains i))).reverse, ?_, rfl, ?_, ?_⟩
  · unfold get_commits_to_rewrite
    simp only [if_neg hne, hcont, Bool.not_true, Bool.false_and, Bool.false_eq_true,
      if_false]
  · intro i
    rw [List.mem_reverse, List.mem_filter]
    constructor
    · rintro ⟨hmem, hpred⟩
      refine ⟨(walkspec_mem_iff hwt i).mp hmem, ?_⟩
      intro hrb
      have hin : i ∈ walk b := (walkspec_mem_iff hwb i).mpr hrb
      rw [contains_iff.mpr hin] at hpred
      cases hpred
    · rintro ⟨hrt, hrb⟩
      refine ⟨(walkspec_mem_iff hwt i).mpr hrt, ?_⟩
      cases hc : (walk b).contains i with
      | false => rfl
      | true => exact absurd ((walkspec_mem_iff hwb i).mp (contains_iff.mp hc)) hrb
  · exact List.nodup_reverse.mpr (List.Nodup.filter _ hwt.nodup)

/-- C5: when base equals target and base is a parentless root, the
resolver returns exactly that single root id. -/
theorem C5_root_self (walk : Nat → List Nat) (repo : Store) (b : Nat)
    (hw : WalkSpec repo walk b) (c : CommitData)
    (hfind : repo.find b = some (GitObj.commit c)) (hroot : c.parents = []) :
    get_commits_to_rewrite walk repo b b = Except.ok [b] := by
  have hpar : parentsOf repo b = [] := by
    unfold parentsOf
    rw [hfind]
    exact hroot
  have hwalk : walk b = [b] := by
    apply nodup_all_eq_singleton hw.nodup hw.mem_tip
    intro x hx
    exact reaches_root hpar x ((walkspec_mem_iff hw x).mp hx)
  unfold get_commits_to_rewrite
  rw [if_pos rfl, hwalk]
  simp

theorem filter_not_contains_nil (l : List Nat) :
    l.filter (fun i => !(([] : List Nat).contains i)) = l := by
  induction l with
  | nil => rfl
  | cons x xs ih => simp [List.filter_cons, ih]

/-- C2 counterexample: on the two-commit chain with base = target = 2 the
resolver yields the full ancestry `[1, 2]`, not the empty list, and the
whole run is not a no-op — it writes two commits and publishes the
derived branch. -/
theorem C2_counterexample :
    get_commits_to_rewrite walk2 repo2 2 2 = Except.ok [1, 2] ∧
    (Except.ok [1, 2] : Except RwError (List Nat)) ≠ Except.ok [] ∧
    (mainRun hash2 walk2 resolve2 repo2 [] "B" "B").2.2 =
      [("refs/heads/B-magitied", 22)] ∧
    (mainRun hash2 walk2 resolve2 repo2 [] "B" "B").2.1.log ≠ [] :=
  ⟨rfl, by decide, rfl, by decide⟩

/-- C2 (amended): when base equals target no exclusion set is built, so
the resolver yields the full ancestry of target oldest-first (the reversed
walk), not an empty list; and whenever the resolver does yield an empty
list the whole operation is a no-op — nothing is written and no reference
is created or updated. -/
theorem C2_amended_theorem (hash : GitObj → Nat) (walk : Nat → List Nat)
    (resolve : String → Option Nat) (repo : Store) (refs : List (String × Nat))
    (base target : String) (b t : Nat)
    (hrb : resolve base = some b) (hrt : resolve target = some t) :
    (b = t → t ∈ walk t →
      get_commits_to_rewrite walk repo b t = Except.ok (walk t).reverse) ∧
    (get_commits_to_rewrite walk repo b t = Except.ok [] →
      mainRun hash walk resolve repo refs base target = (Except.ok none, repo, refs)) := by
  constructor
  · intro hbt hmem
    subst hbt
    have hct : (walk b).contains b = true := contains_iff.mpr hmem
    unfold get_commits_to_rewrite
    rw [if_pos rfl]
    simp only [filter_not_contains_nil, hct, Bool.not_true, Bool.and_false,
      Bool.false_eq_true, if_false]
  · intro hempty
    simp only [mainRun, hrb, hrt, hempty]
    rfl

/-- C2 witness for the amended statement: base = target = 2 yields the
reversed full walk, and a resolver-empty input (base 2, target 1) is a
complete no-op. -/
theorem C2_witness :
    get_commits_to_rewrite walk2 repo2 2 2 = Except.ok ((walk2 2).reverse) ∧
    mainRun hash2 walk2 resolve2 repo2 [] "B" "A" = (Except.ok none, repo2, []) :=
  ⟨(C2_amended_theorem hash2 walk2 resolve2 repo2 [] "B" "B" 2 2 rfl rfl).1 rfl (by decide),
   (C2_amended_theorem hash2 walk2 resolve2 repo2 [] "B" "A" 2 1 rfl rfl).2 (by decide)⟩

/-- C4 witness: base 1, target 2 on the two-commit chain. -/
theorem C4_witness :
    ((1 : Nat) ≠ 2) ∧
    (∃ res, get_commits_to_rewrite walk2 repo2 1 2 = Except.ok res ∧
      res = ((walk2 2).filter (fun i => !((walk2 1).contains i))).reverse ∧
      (∀ i, i ∈ res ↔ (Reaches repo2 2 i ∧ ¬ Reaches repo2 1 i)) ∧
      res.Nodup) :=
  ⟨by decide, C4_revision_set walk2 repo2 1 2 (by decide)
    ⟨by decide, by decide, by decide, by decide⟩
    ⟨by decide, by decide, by decide, by decide⟩⟩

/-- C5 witness: base = target = 1, the parentless root of the chain. -/
theorem C5_witness :
    (repo2.find 1 = some (GitObj.commit cA) ∧ cA.parents = []) ∧
    get_commits_to_rewrite walk2 repo2 1 1 = Except.ok [1] :=
  ⟨⟨rfl, rfl⟩,
   C5_root_self walk2 repo2 1 ⟨by decide, by decide, by decide, by decide⟩ cA rfl rfl⟩

/-! ### Branch publication -/

theorem lookupRef_head {refs : List (String × Nat)} {n : String} {v : Nat} :
    lookupRef ((n, v) :: refs) n = some v := by
  simp [lookupRef, List.find?]

/-- Case split: `main` either succeeds with a tip and publishes exactly the derived
branch, or leaves the refs untouched (errors and the empty no-op). -/
theorem mainRun_cases (hash : GitObj → Nat) (walk : Nat → List Nat)
    (resolve : String → Option Nat) (repo : Store) (refs : List (String × Nat))
    (base target : String) :
    (∃ tip st, mainRun hash walk resolve repo refs base target =
        (Except.ok (some tip), st, create_branch refs target tip)) ∨
    ((mainRun hash walk resolve repo refs base target).2.2 = refs ∧
      ∀ X, (mainRun hash walk resolve repo refs base target).1 ≠ Except.ok (some X)) := by
  unfold mainRun
  split
  · right; exact ⟨rfl, fun X h => by cases h⟩
  · split
    · right; exact ⟨rfl, fun X h => by cases h⟩
    · split
      · right; exact ⟨rfl, fun X h => by cases h⟩
      · split
        · right; exact ⟨rfl, fun X h => by cases h⟩
        · split
          · right; exact ⟨rfl, fun X h => by cases h⟩
          · left; exact ⟨_, _, rfl⟩
          · right; exact ⟨rfl, fun X h => by cases h⟩

/-- C6: the derived reference `refs/heads/{target}{BRANCH_POSTFIX}` is set
to the final rewritten tip exactly when the whole run succeeds with a tip:
success at tip X makes the derived name resolve to X, while any error
(resolution, revision-set computation, rewriting) — and likewise the
empty no-op — leaves the refs unchanged. -/
theorem C6_branch_publish (hash : GitObj → Nat) (walk : Nat → List Nat)
    (resolve : String → Option Nat) (repo : Store) (refs : List (String × Nat))
    (base target : String) :
    (∀ X, (mainRun hash walk resolve repo refs base target).1 = Except.ok (some X) →
      lookupRef (mainRun hash walk resolve repo refs base target).2.2
        ("refs/heads/" ++ (target ++ BRANCH_POSTFIX)) = some X) ∧
    (∀ e, (mainRun hash walk resolve repo refs base target).1 = Except.error e →
      (mainRun hash walk resolve repo refs base target).2.2 = refs) ∧
    ((mainRun hash walk resolve repo refs base target).1 = Except.ok none →
      (mainRun hash walk resolve repo refs base target).2.2 = refs) := by
  rcases mainRun_cases hash walk resolve repo refs base target with
    ⟨tip, st, heq⟩ | ⟨hrefs, hnone⟩
  · refine ⟨?_, ?_, ?_⟩
    · intro X hX
      rw [heq] at hX ⊢
      have hX' : tip = X := by
        simpa using hX
      subst hX'
      exact lookupRef_head
    · intro e hE
      rw [heq] at hE
      cases hE
    · intro h0
      rw [heq] at h0
      cases h0
  · refine ⟨?_, ?_, ?_⟩
    · intro X hX
      exact absurd hX (hnone X)
    · intro e _
      exact hrefs
    · intro _
      exact hrefs

/-- C6 witness: the successful run on the chain publishes
`refs/heads/B-magitied` at the rewritten tip 22. -/
theorem C6_witness :
    lookupRef (mainRun hash2 walk2 resolve2 repo2 [] "B" "B").2.2
      ("refs/heads/" ++ ("B" ++ BRANCH_POSTFIX)) = some 22 :=
  (C6_branch_publish hash2 walk2 resolve2 repo2 [] "B" "B").1 22 (by decide)

/-! ### Object mirror -/

theorem isBT?_iff {x : Option GitObj} :
    isBT? x = true ↔ ∃ o, x = some o ∧ isBlobOrTree o = true := by
  cases x with
  | none => simp [isBT?]
  | some o => simp [isBT?]

theorem StoresAgree_find {src dst : Store} (h : StoresAgree src dst) {i : Nat}
    {o o' : GitObj} (hs : src.find i = some o) (hd : dst.find i = some o') : o' = o :=
  (h (i, o) (Store.find_mem hs) (i, o') (Store.find_mem hd) rfl).symm

theorem StoresAgree_write {hash : GitObj → Nat} {src dst : Store}
    (hfun : src.Functional) (hagree : StoresAgree src dst)
    {i : Nat} {o : GitObj} (hs : src.find i = some o) (hh : hash o = i) :
    StoresAgree src (dst.write hash o).2 := by
  intro p hp q hq hpq
  rw [Store.write_objects] at hq
  by_cases hcase : (dst.find (hash o)).isSome = true
  · rw [if_pos hcase] at hq
    exact hagree p hp q hq hpq
  · rw [if_neg hcase] at hq
    rcases List.mem_cons.mp hq with rfl | hq2
    · have hp1 : p.1 = i := by
        rw [hpq]
        exact hh
      exact hfun p hp (i, o) (Store.find_mem hs) hp1
    · exact hagree p hp q hq2 hpq

theorem copyF_memo {hash : GitObj → Nat} {src : Store} {fuel : Nat} {dst : Store}
    {i : Nat} (h : (dst.find i).isSome) :
    copyF hash src fuel dst i = Except.ok (i, dst) := by
  cases fuel <;> simp [copyF, h]

theorem copyF_succ_new {hash : GitObj → Nat} {src : Store} {fuel : Nat} {dst : Store}
    {i : Nat} (h : dst.find i = none) :
    copyF hash src (fuel + 1) dst i =
      match src.find i with
      | none => Except.error CopyError.findObject
      | some (GitObj.blob data) => Except.ok (dst.write hash (GitObj.blob data))
      | some (GitObj.tree entries) =>
        match copyMany (copyF hash src fuel) dst (entries.map Prod.snd) with
        | Except.error e => Except.error e
        | Except.ok d1 => Except.ok (d1.write hash (GitObj.tree entries))
      | some (GitObj.commit c) => Except.ok (i, dst)
      | some (GitObj.tag d) => Except.ok (i, dst) := by
  simp only [copyF, h, Option.isSome_none, Bool.false_eq_true, if_false]

/-- Invariant carried through the copy of a child list: agreement with the
source is preserved, the destination only grows, and every child whose
source object is a blob or tree ends up in the destination with the
source's bytes. -/
theorem copyMany_spec (hash : GitObj → Nat) (src : Store)
    (f : Store → Nat → Except CopyError (Nat × Store))
    (hf : ∀ (dst : Store) (i rid : Nat) (dst' : Store), StoresAgree src dst →
        f dst i = Except.ok (rid, dst') →
        StoresAgree src dst' ∧
        (∀ j o, dst.find j = some o → dst'.find j = some o) ∧
        (∀ o, src.find i = some o → isBlobOrTree o = true →
          dst'.find i = some o ∧ rid = i)) :
    ∀ (cids : List Nat) (d d1 : Store), StoresAgree src d →
      copyMany f d cids = Except.ok d1 →
      StoresAgree src d1 ∧
      (∀ j o, d.find j = some o → d1.find j = some o) ∧
      (∀ c ∈ cids, ∀ o, src.find c = some o → isBlobOrTree o = true →
        d1.find c = some o) := by
  intro cids
  induction cids with
  | nil =>
    intro d d1 hagree h
    have h' : Except.ok d = Except.ok d1 := h
    cases h'
    exact ⟨hagree, fun j o hj => hj, fun c hc => absurd hc (List.not_mem_nil c)⟩
  | cons c cs ih =>
    intro d d1 hagree h
    cases hfc : f d c with
    | error e =>
      unfold copyMany at h
      rw [hfc] at h
      cases h
    | ok x =>
      unfold copyMany at h
      rw [hfc] at h
      have h' : copyMany f x.2 cs = Except.ok d1 := h
      obtain ⟨hag1, hmono1, hread1⟩ := hf d c x.1 x.2 hagree (by rw [hfc])
      obtain ⟨hag2, hmono2, hread2⟩ := ih x.2 d1 hag1 h'
      refine ⟨hag2, fun j o hj => hmono2 j o (hmono1 j o hj), ?_⟩
      intro e he o hso hbt
      rcases List.mem_cons.mp he with rfl | hmem
      · exact hmono2 _ _ (hread1 o hso hbt).1
      · exact hread2 e hmem o hso hbt

/-- Main invariant of `copy_object_recursive`: under a well-formed,
duplicate-free source and an agreeing destination, a successful copy
preserves agreement, never removes destination objects, and lands the
source's blob/tree object at its own id. -/
theorem copyF_spec (hash : GitObj → Nat) (src : Store)
    (hfun : src.Functional) (hwf : src.WF hash) :
    ∀ (fuel : Nat) (dst : Store) (i rid : Nat) (dst' : Store),
      StoresAgree src dst →
      copyF hash src fuel dst i = Except.ok (rid, dst') →
      StoresAgree src dst' ∧
      (∀ j o, dst.find j = some o → dst'.find j = some o) ∧
      (∀ o, src.find i = some o → isBlobOrTree o = true →
        dst'.find i = some o ∧ rid = i) := by
  intro fuel
  induction fuel with
  | zero =>
    intro dst i rid dst' hagree hrun
    cases hd : dst.find i with
    | some od =>
      rw [copyF_memo (by rw [hd]; rfl)] at hrun
      cases hrun
      refine ⟨hagree, fun j o hj => hj, ?_⟩
      intro o hso _
      have ho : od = o := StoresAgree_find hagree hso hd
      exact ⟨by rw [hd, ho], rfl⟩
    | none =>
      simp only [copyF, hd, Option.isSome_none, Bool.false_eq_true, if_false] at hrun
      cases hrun
  | succ fuel ih =>
    intro dst i rid dst' hagree hrun
    cases hd : dst.find i with
    | some od =>
      rw [copyF_memo (by rw [hd]; rfl)] at hrun
      cases hrun
      refine ⟨hagree, fun j o hj => hj, ?_⟩
      intro o hso _
      have ho : od = o := StoresAgree_find hagree hso hd
      exact ⟨by rw [hd, ho], rfl⟩
    | none =>
      rw [copyF_succ_new hd] at hrun
      cases hs : src.find i with
      | none =>
        rw [hs] at hrun
        cases hrun
      | some o0 =>
        rw [hs] at hrun
        cases o0 with
        | blob data =>
          have h2 : dst.write hash (GitObj.blob data) = (rid, dst') := Except.ok.inj hrun
          have hhash : hash (GitObj.blob data) = i := hwf _ (Store.find_mem hs)
          have hsnd : (dst.write hash (GitObj.blob data)).2 = dst' := by rw [h2]
          have hfst : hash (GitObj.blob data) = rid := by
            rw [← Store.write_id dst hash (GitObj.blob data), h2]
          refine ⟨?_, ?_, ?_⟩
          · rw [← hsnd]
            exact StoresAgree_write hfun hagree hs hhash
          · intro j o hj
            rw [← hsnd, Store.write_find_present (by rw [hj]; rfl)]
            exact hj
          · intro o hso _
            have ho : o = GitObj.blob data := (Option.some.inj hso).symm
            subst ho
            constructor
            · rw [← hsnd]
              have hn : dst.find (hash (GitObj.blob data)) = none := by
                rw [hhash]
                exact hd
              have := Store.write_find_new hn
              rw [hhash] at this
              exact this
            · rw [← hfst, hhash]
        | tree entries =>
          have hrun2 : (match copyMany (copyF hash src fuel) dst (entries.map Prod.snd) with
              | Except.error e => Except.error e
              | Except.ok d1 => Except.ok (d1.write hash (GitObj.tree entries))) =
              Except.ok (rid, dst') := hrun
          cases hcm : copyMany (copyF hash src fuel) dst (entries.map Prod.snd) with
          | error e =>
            rw [hcm] at hrun2
            cases hrun2
          | ok d1 =>
            rw [hcm] at hrun2
            have h2 : d1.write hash (GitObj.tree entries) = (rid, dst') := Except.ok.inj hrun2
            have hhash : hash (GitObj.tree entries) = i := hwf _ (Store.find_mem hs)
            obtain ⟨hag1, hmono1, _⟩ :=
              copyMany_spec hash src (copyF hash src fuel) ih
                (entries.map Prod.snd) dst d1 hagree hcm
            have hsnd : (d1.write hash (GitObj.tree entries)).2 = dst' := by rw [h2]
            have hfst : hash (GitObj.tree entries) = rid := by
              rw [← Store.write_id d1 hash (GitObj.tree entries), h2]
            refine ⟨?_, ?_, ?_⟩
            · rw [← hsnd]
              exact StoresAgree_write hfun hag1 hs hhash
            · intro j o hj
              rw [← hsnd, Store.write_find_present (by rw [hmono1 j o hj]; rfl)]
              exact hmono1 j o hj
            · intro o hso _
              have ho : o = GitObj.tree entries := (Option.some.inj hso).symm
              subst ho
              constructor
              · rw [← hsnd]
                cases hd1 : d1.find i with
                | some o2 =>
                  have ho2 : o2 = GitObj.tree entries := StoresAgree_find hag1 hs hd1
                  rw [Store.write_find_present (by rw [hd1]; rfl), hd1, ho2]
                | none =>
                  have hn : d1.find (hash (GitObj.tree entries)) = none := by
                    rw [hhash]
                    exact hd1
                  have := Store.write_find_new hn
                  rw [hhash] at this
                  exact this
              · rw [← hfst, hhash]
        | commit c =>
          have h2 : (i, dst) = (rid, dst') := Except.ok.inj hrun
          have hrid : i = rid := congrArg Prod.fst h2
          have hdst : dst = dst' := congrArg Prod.snd h2
          subst hdst
          refine ⟨hagree, fun j o hj => hj, ?_⟩
          intro o hso hbt
          have ho : o = GitObj.commit c := (Option.some.inj hso).symm
          subst ho
          simp [isBlobOrTree] at hbt
        | tag d =>
          have h2 : (i, dst) = (rid, dst') := Except.ok.inj hrun
          have hdst : dst = dst' := congrArg Prod.snd h2
          subst hdst
          refine ⟨hagree, fun j o hj => hj, ?_⟩
          intro o hso hbt
          have ho : o = GitObj.tag d := (Option.some.inj hso).symm
          subst ho
          simp [isBlobOrTree] at hbt

/-- C7: when the destination already holds an object for the id,
`copy_object_recursive` returns that id at once, independently of the
source (it is universally quantified) and without touching the
destination; consequently copying the same blob id twice against one
destination performs exactly one underlying write. -/
theorem C7_memoization (hash : GitObj → Nat) (fuel : Nat) (dst : Store) (i : Nat) :
    ((dst.find i).isSome = true →
      ∀ src, copy_object_recursive hash fuel src dst i = Except.ok (i, dst)) ∧
    (∀ src b, src.find i = some (GitObj.blob b) → hash (GitObj.blob b) = i →
      dst.find i = none → 1 ≤ fuel →
      ∃ d1, copy_object_recursive hash fuel src dst i = Except.ok (i, d1) ∧
        d1.log = GitObj.blob b :: dst.log ∧
        copy_object_recursive hash fuel src d1 i = Except.ok (i, d1)) := by
  constructor
  · intro h src
    exact copyF_memo h
  · intro src b hs hh hd hfuel
    subst hh
    cases fuel with
    | zero => exact absurd hfuel (by omega)
    | succ n =>
      refine ⟨(dst.write hash (GitObj.blob b)).2, ?_, Store.write_log dst hash _, ?_⟩
      · show copyF hash src (n + 1) dst (hash (GitObj.blob b)) = _
        rw [copyF_succ_new hd, hs]
        rfl
      · have hnew : ((dst.write hash (GitObj.blob b)).2).find (hash (GitObj.blob b)) =
            some (GitObj.blob b) := Store.write_find_new hd
        exact copyF_memo (by rw [hnew]; rfl)

/-- C8 (amended): for a tree id in a well-formed source, when the
destination does not already hold that id (and the stores agree on shared
ids, as content-addressing guarantees), a successful
`copy_object_recursive` copies every blob/tree child into the destination
before writing the tree itself last (the tree object heads the write log),
the tree stored in the destination is byte-identical to the source's, and
reading every entry back from the destination yields the source's
content. -/
theorem C8_amended_theorem (hash : GitObj → Nat) (fuel : Nat) (src dst : Store)
    (i rid : Nat) (entries : List (String × Nat)) (dst' : Store)
    (hfun : src.Functional) (hwf : src.WF hash) (hagree : StoresAgree src dst)
    (hfind : src.find i = some (GitObj.tree entries))
    (hkinds : ∀ p ∈ entries, isBT? (src.find p.2) = true)
    (hnew : dst.find i = none)
    (hrun : copy_object_recursive hash fuel src dst i = Except.ok (rid, dst')) :
    rid = i ∧
    dst'.find i = some (GitObj.tree entries) ∧
    (∀ p ∈ entries, dst'.find p.2 = src.find p.2) ∧
    dst'.log.head? = some (GitObj.tree entries) := by
  cases fuel with
  | zero =>
    unfold copy_object_recursive at hrun
    simp only [copyF, hnew, Option.isSome_none, Bool.false_eq_true, if_false] at hrun
    cases hrun
  | succ n =>
    unfold copy_object_recursive at hrun
    rw [copyF_succ_new hnew, hfind] at hrun
    have hrun2 : (match copyMany (copyF hash src n) dst (entries.map Prod.snd) with
        | Except.error e => Except.error e
        | Except.ok d1 => Except.ok (d1.write hash (GitObj.tree entries))) =
        Except.ok (rid, dst') := hrun
    cases hcm : copyMany (copyF hash src n) dst (entries.map Prod.snd) with
    | error e =>
      rw [hcm] at hrun2
      cases hrun2
    | ok d1 =>
      rw [hcm] at hrun2
      have h2 : d1.write hash (GitObj.tree entries) = (rid, dst') := Except.ok.inj hrun2
      have hhash : hash (GitObj.tree entries) = i := hwf _ (Store.find_mem hfind)
      obtain ⟨hag1, hmono1, hread1⟩ :=
        copyMany_spec hash src (copyF hash src n) (copyF_spec hash src hfun hwf n)
          (entries.map Prod.snd) dst d1 hagree hcm
      have hsnd : (d1.write hash (GitObj.tree entries)).2 = dst' := by rw [h2]
      have hfst : hash (GitObj.tree entries) = rid := by
        rw [← Store.write_id d1 hash (GitObj.tree entries), h2]
      have hfind1 : dst'.find i = some (GitObj.tree entries) := by
        rw [← hsnd]
        cases hd1 : d1.find i with
        | some o2 =>
          have ho2 : o2 = GitObj.tree entries := StoresAgree_find hag1 hfind hd1
          rw [Store.write_find_present (by rw [hd1]; rfl), hd1, ho2]
        | none =>
          have hn : d1.find (hash (GitObj.tree entries)) = none := by
            rw [hhash]
            exact hd1
          have hw := Store.write_find_new hn
          rw [hhash] at hw
          exact hw
      refine ⟨by rw [← hfst, hhash], hfind1, ?_, ?_⟩
      · intro p hp
        obtain ⟨o, hso, hbt⟩ := isBT?_iff.mp (hkinds p hp)
        have hc : p.2 ∈ entries.map Prod.snd := List.mem_map.mpr ⟨p, hp, rfl⟩
        have hr : d1.find p.2 = some o := hread1 p.2 hc o hso hbt
        rw [← hsnd, Store.write_find_present (by rw [hr]; rfl), hr, hso]
      · rw [← hsnd, Store.write_log]
        rfl

/-! ### Concrete stores for the mirror claims -/

/-- Source for the C7 witness: a single blob. -/
def src7 : Store := { objects := [(7, GitObj.blob [3])], log := [] }

/-- Initially empty destination. -/
def dst7 : Store := { objects := [], log := [] }

/-- Content addresses for the C7 witness. -/
def hash7 : GitObj → Nat := fun o => if o = GitObj.blob [3] then 7 else 0

/-- C7 witness: copying blob 7 twice against one destination results in
exactly one underlying write. -/
theorem C7_witness :
    (src7.find 7 = some (GitObj.blob [3]) ∧ hash7 (GitObj.blob [3]) = 7 ∧
      dst7.find 7 = none ∧ 1 ≤ 1) ∧
    (∃ d1, copy_object_recursive hash7 1 src7 dst7 7 = Except.ok (7, d1) ∧
      d1.log = GitObj.blob [3] :: dst7.log ∧
      copy_object_recursive hash7 1 src7 d1 7 = Except.ok (7, d1)) :=
  ⟨⟨rfl, rfl, rfl, le_refl 1⟩,
   (C7_memoization hash7 1 dst7 7).2 src7 [3] rfl rfl rfl (le_refl 1)⟩

/-- Source for the C8 witness: tree 5 with blob child 7 and subtree child
8, which itself shares the blob 7. -/
def src8 : Store :=
  { objects := [(5, GitObj.tree [("f", 7), ("g", 8)]), (7, GitObj.blob [1, 2]),
                (8, GitObj.tree [("h", 7)])], log := [] }

/-- Initially empty destination for the C8 witness. -/
def dst8 : Store := { objects := [], log := [] }

/-- Content addresses for the C8 witness. -/
def hash8 : GitObj → Nat := fun o =>
  if o = GitObj.blob [1, 2] then 7
  else if o = GitObj.tree [("h", 7)] then 8
  else if o = GitObj.tree [("f", 7), ("g", 8)] then 5 else 0

/-- Destination after the C8 witness copy: children written first, the
tree last. -/
def dst8Fin : Store :=
  { objects := [(5, GitObj.tree [("f", 7), ("g", 8)]), (8, GitObj.tree [("h", 7)]),
                (7, GitObj.blob [1, 2])],
    log := [GitObj.tree [("f", 7), ("g", 8)], GitObj.tree [("h", 7)],
            GitObj.blob [1, 2]] }

/-- C8 witness: copying tree 5 into an empty destination lands both
children with source-identical content, writes the tree last, and keeps
its bytes identical. -/
theorem C8_witness :
    (src8.Functional ∧ src8.WF hash8 ∧ StoresAgree src8 dst8 ∧ dst8.find 5 = none ∧
      copy_object_recursive hash8 3 src8 dst8 5 = Except.ok (5, dst8Fin)) ∧
    ((5 : Nat) = 5 ∧
      dst8Fin.find 5 = some (GitObj.tree [("f", 7), ("g", 8)]) ∧
      (∀ p ∈ [("f", 7), ("g", 8)], dst8Fin.find p.2 = src8.find p.2) ∧
      dst8Fin.log.head? = some (GitObj.tree [("f", 7), ("g", 8)])) :=
  ⟨⟨by decide, by decide, by decide, rfl, rfl⟩,
   C8_amended_theorem hash8 3 src8 dst8 5 5 [("f", 7), ("g", 8)] dst8Fin
     (by decide) (by decide) (by decide) rfl (by decide) rfl rfl⟩

/-- Source for the C8 counterexample: tree 5 referencing blob 7. -/
def srcX : Store :=
  { objects := [(5, GitObj.tree [("f", 7)]), (7, GitObj.blob [1])], log := [] }

/-- Destination already holding the tree id but not its child. -/
def dstX : Store := { objects := [(5, GitObj.tree [("f", 7)])], log := [] }

/-- Content addresses for the C8 counterexample. -/
def hashX : GitObj → Nat := fun o =>
  if o = GitObj.blob [1] then 7 else if o = GitObj.tree [("f", 7)] then 5 else 0

/-- C8 counterexample: the destination already holds the tree id 5, so the
memoized call returns immediately and never copies the child blob 7 —
reading the entry back from the destination does not yield the source's
content, refuting the claim for destinations that already hold the tree. -/
theorem C8_counterexample :
    srcX.find 5 = some (GitObj.tree [("f", 7)]) ∧
    copy_object_recursive hashX 2 srcX dstX 5 = Except.ok (5, dstX) ∧
    srcX.find 7 = some (GitObj.blob [1]) ∧
    dstX.find 7 = none ∧
    dstX.find 7 ≠ srcX.find 7 :=
  ⟨rfl, rfl, rfl, rfl, by decide⟩

end Magit
